import Mathlib

/-!
Shallow embedding of the Prow `jira` plugin (`prow/plugins/jira/jira.go`)
and proofs about its reference-resolution and dual-link-maintenance logic.

Go strings are modelled as `List Char` (`GoString`).  The external
collaborators (the Jira tracker client and the GitHub client) are modelled
as oracle functions in an `Env` structure; the handler is a pure function
from the environment and the event to the trace of collaborator calls it
issues, the log lines it emits, and the error value it returns.  The
concurrent fan-out of back-link upserts in the source is serialized in the
model (the claims proved here are insensitive to the interleaving: they
only constrain which calls appear in the trace).
-/

set_option maxHeartbeats 1000000

/-- Go strings, modelled as lists of characters. -/
abbrev GoString := List Char

/-- Coercion from Lean string literals to the model's strings. -/
def str (s : String) : GoString := s.data

/-- Whitespace test used by Go's `strings.Fields` (`unicode.IsSpace`),
restricted to the Latin-1 range Go special-cases. -/
def goIsSpace (c : Char) : Bool :=
  c = ' ' || c = '\t' || c = '\n' || c = (Char.ofNat 11) || c = (Char.ofNat 12) ||
  c = '\r' || c = (Char.ofNat 0x85) || c = (Char.ofNat 0xA0)

/-- Model of Go `strings.Fields`: the maximal runs of non-whitespace
characters, in order; no empty fields are produced. -/
def goFields (s : GoString) : List GoString :=
  (s.splitOnP goIsSpace).filter (fun w => !w.isEmpty)

/-- Model of Go `strings.HasPrefix sub s`-style test: does `s` start with
`pat`? -/
def startsWithChars : GoString → GoString → Bool
  | _, [] => true
  | [], _ :: _ => false
  | c :: cs, p :: ps => (c = p) && startsWithChars cs ps

/-- Model of Go `strings.Contains s sub`: does `sub` occur contiguously in
`s`? -/
def goContains (s sub : GoString) : Bool :=
  match s with
  | [] => sub.isEmpty
  | _ :: t => startsWithChars s sub || goContains t sub

/-- Model of Go `strings.Join ws " "`. -/
def goJoin (ws : List GoString) : GoString := List.intercalate (str " ") ws

/-- The markdown link a matched word is rewritten to:
`[<word>](<base-url>/browse/<word>)` (jira.go line 158). -/
def linkify (jiraBaseURL w : GoString) : GoString :=
  str "[" ++ w ++ str "](" ++ jiraBaseURL ++ str "/browse/" ++ w ++ str ")"

/-- The loop body of `insertLinksIntoComment` (jira.go lines 140-159): each
word is skipped when it starts with `[`, rewritten (setting the
`didReplace` flag) when it contains some valid issue, and kept otherwise.
Returns the rewritten word list together with the final `didReplace`
flag. -/
def annotateWords (validIssues : List GoString) (jiraBaseURL : GoString) :
    List GoString → List GoString × Bool
  | [] => ([], false)
  | w :: ws =>
    let rest := annotateWords validIssues jiraBaseURL ws
    if startsWithChars w (str "[") then (w :: rest.1, rest.2)
    else if validIssues.any (fun issue => goContains w issue) then
      (linkify jiraBaseURL w :: rest.1, true)
    else (w :: rest.1, rest.2)

/-- Model of `insertLinksIntoComment` (jira.go lines 137-166): tokenize the
body with `strings.Fields`, rewrite matching words, and either return the
body unchanged (no replacement) or rejoin the words with single spaces. -/
def insertLinksIntoComment (body : GoString) (validIssues : List GoString)
    (jiraBaseURL : GoString) : GoString :=
  let r := annotateWords validIssues jiraBaseURL (goFields body)
  if r.2 then goJoin r.1 else body

/-- Word characters of RE2's ASCII `\b`: `[0-9A-Za-z_]`. -/
def isWordChar (c : Char) : Bool := c.isAlpha || c.isDigit || c = '_'

/-- Trailing `\b` test: the remainder after a match must be empty or start
with a non-word character. -/
def boundaryAfter : GoString → Bool
  | [] => true
  | c :: _ => !isWordChar c

/-- Attempt to match `[a-zA-Z]+-[0-9]+\b` at the head of `s`, as RE2 matches
it: a maximal nonempty run of letters, a `-`, a maximal nonempty run of
digits, then a word boundary.  (Maximality is forced: a shorter letter run
would be followed by a letter, not `-`, and a shorter digit run would be
followed by a digit, failing the trailing `\b`.)  Returns the matched
characters and the remainder. -/
def matchIssueAt (s : GoString) : Option (GoString × GoString) :=
  if (s.takeWhile Char.isAlpha).isEmpty then none
  else
    match s.dropWhile Char.isAlpha with
    | '-' :: r2 =>
      if (r2.takeWhile Char.isDigit).isEmpty then none
      else if boundaryAfter (r2.dropWhile Char.isDigit) then
        some (s.takeWhile Char.isAlpha ++ '-' :: r2.takeWhile Char.isDigit,
              r2.dropWhile Char.isDigit)
      else none
    | _ => none

/-- Scanner for `issueNameRegex.FindAllString(s, -1)` with
`issueNameRegex = \b[a-zA-Z]+-[0-9]+\b` (jira.go line 41): walk the string
left to right; at each position with a word boundary on its left (tracked
as `prevWord`, whether the previous character was a word character — the
only fact `\b` reads), report the leftmost-first match starting there and
continue after it (`skip` counts the positions remaining inside the last
reported match, which `FindAllString`'s non-overlapping scan never
revisits). -/
def findAllGo (prevWord : Bool) (skip : Nat) : GoString → List GoString
  | [] => []
  | c :: cs =>
    match skip with
    | k + 1 => findAllGo (isWordChar c) k cs
    | 0 =>
      if prevWord then findAllGo (isWordChar c) 0 cs
      else
        match matchIssueAt (c :: cs) with
        | some m => m.1 :: findAllGo (isWordChar c) (m.1.length - 1) cs
        | none => findAllGo (isWordChar c) 0 cs

/-- Model of `issueNameRegex.FindAllString(s, -1)`: all successive
non-overlapping leftmost matches of `\b[a-zA-Z]+-[0-9]+\b` in `s`. -/
def findAllIssueNames (s : GoString) : List GoString := findAllGo false 0 s

/-- Spec-side extractor, following the spec's words: "extraction returns
exactly the substrings matching `[A-Za-z]+-[0-9]+` at word boundaries, in
document order".  It visits every position of the string in order and
reports the word-boundary-delimited pattern match starting there, if any —
no non-overlapping skip, unlike the scanner modelled from the code. -/
def specExtractAux (prevWord : Bool) : GoString → List GoString
  | [] => []
  | c :: cs =>
    match (if prevWord then none else matchIssueAt (c :: cs)) with
    | some m => m.1 :: specExtractAux (isWordChar c) cs
    | none => specExtractAux (isWordChar c) cs

/-- Spec-side extractor at the start of a string (no preceding character,
so the left side of the first `\b` is non-word). -/
def specExtract (s : GoString) : List GoString := specExtractAux false s

/-- Icon of a Jira remote link (the fields `jira.RemoteLinkIcon` the plugin
sets). -/
structure RemoteLinkIcon where
  Url16x16 : GoString
  Title : GoString
deriving DecidableEq

/-- Object of a Jira remote link (the fields `jira.RemoteLinkObject` the
plugin sets and reads). -/
structure RemoteLinkObject where
  URL : GoString
  Title : GoString
  Icon : RemoteLinkIcon
deriving DecidableEq

/-- A Jira remote link (the field `jira.RemoteLink.Object` the plugin sets
and reads). -/
structure RemoteLink where
  Object : RemoteLinkObject
deriving DecidableEq

/-- The fields of `github.GenericCommentEvent` that `handle` reads.
`RepoOwnerLogin`/`RepoName`/`RepoFullName` flatten `e.Repo.Owner.Login`,
`e.Repo.Name` and `e.Repo.FullName`. -/
structure GenericCommentEvent where
  Action : GoString
  Body : GoString
  IssueTitle : GoString
  HTMLURL : GoString
  Number : Nat
  RepoOwnerLogin : GoString
  RepoName : GoString
  RepoFullName : GoString
  CommentID : Option Int
deriving DecidableEq

/-- Value of the constant `github.GenericCommentActionDeleted`. -/
def GenericCommentActionDeleted : GoString := str "deleted"

/-- URL canonicalization in `upsertGitHubLinkToIssue` (jira.go lines
174-177): truncate at the first `#` if one is present, via
`strings.Index`. -/
def stripFragment (url : GoString) : GoString :=
  match url.findIdx? (fun c => c = '#') with
  | none => url
  | some idx => url.take idx

/-- The `jira.RemoteLink` value constructed at jira.go lines 184-193. -/
def mkRemoteLink (e : GenericCommentEvent) : RemoteLink :=
  { Object := { URL := stripFragment e.HTMLURL,
                Title := e.RepoFullName ++ str "#" ++ (toString e.Number).data ++
                  str ": " ++ e.IssueTitle,
                Icon := { Url16x16 := str "https://github.com/favicon.ico",
                          Title := str "GitHub" } } }

/-- The pure decision core of `upsertGitHubLinkToIssue` (jira.go lines
174-193), given the already-fetched remote links: `none` means "already
linked, return without calling AddRemoteLink"; `some l` means "create
`l`". -/
def upsertDecision (links : List RemoteLink) (e : GenericCommentEvent) :
    Option RemoteLink :=
  if links.any (fun link => link.Object.URL == stripFragment e.HTMLURL) then none
  else some (mkRemoteLink e)

/-- Effect of one upsert run on the tracker's link set: `AddRemoteLink`
appends the created link; a no-op run leaves the links unchanged. -/
def applyUpsert (links : List RemoteLink) (e : GenericCommentEvent) :
    List RemoteLink :=
  match upsertDecision links e with
  | none => links
  | some l => links ++ [l]

/-- Calls `handle` can issue on the Jira client. -/
inductive JiraCall
  | getIssue (id : GoString)
  | getRemoteLinks (id : GoString)
  | addRemoteLink (id : GoString) (link : RemoteLink)
deriving DecidableEq

/-- Calls `handle` can issue on the GitHub client. -/
inductive GitHubCall
  | editComment (org repo : GoString) (id : Int) (body : GoString)
  | getIssue (org repo : GoString) (number : Nat)
  | editIssue (org repo : GoString) (number : Nat) (body : GoString)
deriving DecidableEq

/-- Whether a GitHub call writes to the discussion platform (`GetIssue` is
a read). -/
def GitHubCall.write : GitHubCall → Bool
  | .editComment .. => true
  | .editIssue .. => true
  | .getIssue .. => false

/-- Outcome of `jc.GetIssue` as the validator distinguishes it:
success, the distinguishable not-found error (`jiraclient.IsNotFound`),
or any other error. -/
inductive LookupResult
  | found
  | notFound
  | err (msg : GoString)
deriving DecidableEq

/-- Oracles for the two collaborator clients: what each remote call would
return during this run.  `ghIssueBody` is `ghc.GetIssue` projected to the
one field the plugin uses (`issue.Body`). -/
structure Env where
  lookup : GoString → LookupResult
  remoteLinks : GoString → Except GoString (List RemoteLink)
  addRemoteLinkErr : GoString → Option GoString
  ghIssueBody : GoString → GoString → Nat → Except GoString GoString
  editCommentErr : Option GoString
  editIssueErr : Option GoString
  jiraURL : GoString

/-- The validation loop of `handle` (jira.go lines 78-91): walk the
candidates, skip those already in `referencedIssues`, call `jc.GetIssue`
on the rest; insert on success, drop silently on not-found, log and drop
on any other error.  Returns the referenced issues (insertion order — the
source keeps them in a set), the Jira calls made, and the log lines. -/
def validateCandidates (lookup : GoString → LookupResult) :
    List GoString → List GoString → List GoString × List JiraCall × List GoString
  | [], referenced => (referenced, [], [])
  | c :: rest, referenced =>
    if referenced.contains c then validateCandidates lookup rest referenced
    else
      match lookup c with
      | .found =>
        let r := validateCandidates lookup rest (referenced ++ [c])
        (r.1, .getIssue c :: r.2.1, r.2.2)
      | .notFound =>
        let r := validateCandidates lookup rest referenced
        (r.1, .getIssue c :: r.2.1, r.2.2)
      | .err _ =>
        let r := validateCandidates lookup rest referenced
        (r.1, .getIssue c :: r.2.1, (str "Failed to get issue " ++ c) :: r.2.2)

/-- Model of `upsertGitHubLinkToIssue` (jira.go lines 168-201): fetch the
remote links, no-op when one already carries the canonical URL, otherwise
add the constructed link.  Returns the Jira calls made and the error
returned, if any. -/
def upsertGitHubLinkToIssue (env : Env) (issueID : GoString)
    (e : GenericCommentEvent) : List JiraCall × Option GoString :=
  match env.remoteLinks issueID with
  | .error msg => ([.getRemoteLinks issueID],
      some (str "failed to get remote links: " ++ msg))
  | .ok links =>
    match upsertDecision links e with
    | none => ([.getRemoteLinks issueID], none)
    | some link =>
      match env.addRemoteLinkErr issueID with
      | some msg => ([.getRemoteLinks issueID, .addRemoteLink issueID link],
          some (str "failed to add remote link: " ++ msg))
      | none => ([.getRemoteLinks issueID, .addRemoteLink issueID link], none)

/-- The upsert fan-out of `handle` (jira.go lines 93-102, one goroutine per
referenced issue, serialized here): each unit's error is logged and does
not affect the others. -/
def upsertAll (env : Env) (e : GenericCommentEvent) :
    List GoString → List JiraCall × List GoString
  | [] => ([], [])
  | issue :: rest =>
    let r := upsertGitHubLinkToIssue env issue e
    let rs := upsertAll env e rest
    (r.1 ++ rs.1,
     (match r.2 with
      | some msg => [str "Failed to ensure GitHub link on Jira issue: " ++ msg]
      | none => []) ++ rs.2)

/-- Model of `updateComment` (jira.go lines 112-135).  Returns the GitHub
calls made and the error returned, if any. -/
def updateComment (env : Env) (e : GenericCommentEvent)
    (validIssues : List GoString) : List GitHubCall × Option GoString :=
  let withLinks := insertLinksIntoComment e.Body validIssues env.jiraURL
  if withLinks = e.Body then ([], none)
  else
    match e.CommentID with
    | some cid => ([.editComment e.RepoOwnerLogin e.RepoName cid withLinks],
        env.editCommentErr)
    | none =>
      match env.ghIssueBody e.RepoOwnerLogin e.RepoName e.Number with
      | .error msg => ([.getIssue e.RepoOwnerLogin e.RepoName e.Number],
          some (str "failed to get issue: " ++ msg))
      | .ok body =>
        let withLinks2 := insertLinksIntoComment body validIssues env.jiraURL
        if withLinks2 = body then ([.getIssue e.RepoOwnerLogin e.RepoName e.Number], none)
        else ([.getIssue e.RepoOwnerLogin e.RepoName e.Number,
               .editIssue e.RepoOwnerLogin e.RepoName e.Number withLinks2],
              env.editIssueErr)

/-- Result of one `handle` run: the Jira and GitHub calls issued (the
concurrent upserts serialized in fan-out order), the log lines, and the
error `handle` returns to its caller. -/
structure HandleOut where
  jiraCalls : List JiraCall
  githubCalls : List GitHubCall
  logs : List GoString
  ret : Option GoString
deriving DecidableEq

/-- Model of `handle` (jira.go lines 66-110): deletion short-circuit,
extraction from body then title, validation, concurrent upsert fan-out,
and the comment/issue rewrite; upsert and rewrite failures are logged,
and `handle` returns `nil` on every path. -/
def handle (env : Env) (e : GenericCommentEvent) : HandleOut :=
  if e.Action = GenericCommentActionDeleted then ⟨[], [], [], none⟩
  else
    let issueCandidateNames := findAllIssueNames e.Body ++ findAllIssueNames e.IssueTitle
    if issueCandidateNames.length = 0 then ⟨[], [], [], none⟩
    else
      let v := validateCandidates env.lookup issueCandidateNames []
      let u := upsertAll env e v.1
      let g := updateComment env e v.1
      ⟨v.2.1 ++ u.1, g.1,
       v.2.2 ++ u.2 ++ (match g.2 with
        | some msg => [str "Failed to insert links into body: " ++ msg]
        | none => []),
       none⟩

/-- Sample environment where every collaborator call succeeds. -/
def sampleEnv : Env :=
  { lookup := fun _ => .found
    remoteLinks := fun _ => .ok []
    addRemoteLinkErr := fun _ => none
    ghIssueBody := fun _ _ _ => .ok (str "")
    editCommentErr := none
    editIssueErr := none
    jiraURL := str "https://jira.example.com" }

/-- Sample event: an edited comment mentioning one issue. -/
def sampleEvent : GenericCommentEvent :=
  { Action := str "edited"
    Body := str "Fixes ABC-123"
    IssueTitle := str "some title"
    HTMLURL := str "https://github.com/o/r/pull/3#issuecomment-9"
    Number := 3
    RepoOwnerLogin := str "o"
    RepoName := str "r"
    RepoFullName := str "o/r"
    CommentID := some 9 }

/-- Spec-side test: a whitespace-delimited token is rewritten iff it does
not start with the link-opening marker `[` and contains some validated
identifier as a substring. -/
def tokenMatches (validIssues : List GoString) (w : GoString) : Bool :=
  !startsWithChars w (str "[") && validIssues.any (fun issue => goContains w issue)

/-- Spec-side per-token rewrite: a matching token becomes
`[<token>](<base-url>/browse/<token>)`; any other token is kept. -/
def rewriteToken (validIssues : List GoString) (jiraBaseURL : GoString)
    (w : GoString) : GoString :=
  if tokenMatches validIssues w then linkify jiraBaseURL w else w

/-- Sample remote link whose target is the canonical (fragment-free) form
of `sampleEvent.HTMLURL`. -/
def sampleLink : RemoteLink :=
  ⟨⟨str "https://github.com/o/r/pull/3", str "t", ⟨str "i", str "GitHub"⟩⟩⟩

/-- Sample environment in which the tracker already holds `sampleLink`. -/
def envWithLink : Env := { sampleEnv with remoteLinks := fun _ => .ok [sampleLink] }

/-- Sample event whose body and title contain no issue reference. -/
def evNoRefs : GenericCommentEvent :=
  { sampleEvent with Body := str "no refs here", IssueTitle := str "a title" }

/-- Sample tracker lookup oracle: `AB-1` exists, everything else is
not found. -/
def wLookup : GoString → LookupResult :=
  fun c => if c = str "AB-1" then .found else .notFound

/-- Sample environment in which the remote-link fetch and the comment edit
both fail. -/
def failEnv : Env :=
  { sampleEnv with
    remoteLinks := fun _ => .error (str "jira down")
    editCommentErr := some (str "github down") }

/-- Sample event whose only issue reference sits in the title. -/
def evTitleOnly : GenericCommentEvent :=
  { sampleEvent with Body := str "please review", IssueTitle := str "ABC-123 fix" }

/-! ### Theorems -/

example :
    insertLinksIntoComment (str "Fixes ABC-123 and see XYZ-9")
      [str "ABC-123", str "XYZ-9"] (str "https://issues.example.com") =
    str "Fixes [ABC-123](https://issues.example.com/browse/ABC-123) and see [XYZ-9](https://issues.example.com/browse/XYZ-9)" := by
  decide

example :
    insertLinksIntoComment (str "See [ABC-123](https://issues.example.com/browse/ABC-123)")
      [str "ABC-123"] (str "https://issues.example.com") =
    str "See [ABC-123](https://issues.example.com/browse/ABC-123)" := by
  decide

example : findAllIssueNames (str "Fixes ABC-123 and see XYZ-9") =
    [str "ABC-123", str "XYZ-9"] := by decide

example : findAllIssueNames (str "1ABC-123 AB-12cd AB-12-34") = [str "AB-12"] := by decide

example : specExtract (str "1ABC-123 AB-12cd AB-12-34") = [str "AB-12"] := by decide

example : findAllIssueNames (str "a_b-1 c-2_ -3 a-") = [] := by decide

example :
    handle sampleEnv sampleEvent =
      ⟨[.getIssue (str "ABC-123"), .getRemoteLinks (str "ABC-123"),
        .addRemoteLink (str "ABC-123")
          ⟨⟨str "https://github.com/o/r/pull/3",
            str "o/r#3: some title",
            ⟨str "https://github.com/favicon.ico", str "GitHub"⟩⟩⟩],
       [.editComment (str "o") (str "r") 9
          (str "Fixes [ABC-123](https://jira.example.com/browse/ABC-123)")],
       [], none⟩ := by decide

example : handle sampleEnv { sampleEvent with Action := str "deleted" } = ⟨[], [], [], none⟩ := by
  decide

theorem annotateWords_eq (v : List GoString) (b : GoString) (ws : List GoString) :
    annotateWords v b ws = (ws.map (rewriteToken v b), ws.any (tokenMatches v)) := by
  induction ws with
  | nil => rfl
  | cons w ws ih =>
    simp only [annotateWords, ih, List.map_cons, List.any_cons, rewriteToken, tokenMatches]
    by_cases h1 : startsWithChars w (str "[") <;>
      by_cases h2 : (v.any fun issue => goContains w issue) <;>
        simp [h1, h2]

theorem insertLinks_eq (body : GoString) (validIssues : List GoString)
    (jiraBaseURL : GoString) :
    insertLinksIntoComment body validIssues jiraBaseURL =
      if (goFields body).any (tokenMatches validIssues) then
        goJoin ((goFields body).map (rewriteToken validIssues jiraBaseURL))
      else body := by
  simp only [insertLinksIntoComment, annotateWords_eq]

theorem splitOnP_mem_not (p : Char → Bool) :
    ∀ (l : GoString), ∀ w ∈ l.splitOnP p, ∀ c ∈ w, p c = false := by
  intro l
  induction l with
  | nil =>
    intro w hw c hc
    simp only [List.splitOnP_nil, List.mem_singleton] at hw
    subst hw; simp at hc
  | cons x xs ih =>
    intro w hw c hc
    rw [List.splitOnP_cons] at hw
    by_cases hx : p x = true
    · rw [if_pos hx] at hw
      rcases List.mem_cons.mp hw with h | h
      · subst h; simp at hc
      · exact ih w h c hc
    · rw [if_neg hx] at hw
      rcases heq : xs.splitOnP p with _ | ⟨h', t'⟩
      · exact absurd heq (List.splitOnP_ne_nil p xs)
      · rw [heq] at hw
        simp only [List.modifyHead] at hw
        rcases List.mem_cons.mp hw with h | h
        · subst h
          rcases List.mem_cons.mp hc with rfl | hc'
          · exact eq_false_of_ne_true hx
          · exact ih h' (heq ▸ List.mem_cons_self h' t') c hc'
        · exact ih w (heq ▸ List.mem_cons_of_mem h' h) c hc

theorem goFields_mem {s w : GoString} (h : w ∈ goFields s) :
    w ≠ [] ∧ ∀ c ∈ w, goIsSpace c = false := by
  unfold goFields at h
  have hm := List.mem_filter.mp h
  refine ⟨?_, fun c hc => splitOnP_mem_not goIsSpace s w hm.1 c hc⟩
  intro hw
  subst hw
  simp at hm

theorem goJoin_singleton (w : GoString) : goJoin [w] = w := by
  simp [goJoin, List.intercalate]

theorem goJoin_cons_cons (w1 w2 : GoString) (ws : List GoString) :
    goJoin (w1 :: w2 :: ws) = w1 ++ ' ' :: goJoin (w2 :: ws) := by
  simp [goJoin, List.intercalate, str]

theorem goFields_goJoin : ∀ (ws : List GoString),
    (∀ w ∈ ws, w ≠ [] ∧ ∀ c ∈ w, goIsSpace c = false) →
    goFields (goJoin ws) = ws := by
  intro ws
  induction ws with
  | nil => intro _; rfl
  | cons w ws ih =>
    intro h
    cases ws with
    | nil =>
      rw [goJoin_singleton]
      unfold goFields
      rw [List.splitOnP_eq_single]
      · obtain ⟨hne, _⟩ := h w (List.mem_cons_self w [])
        simp [hne]
      · intro x hx
        have := (h w (List.mem_cons_self _ _)).2 x hx
        simp [this]
    | cons w2 ws2 =>
      rw [goJoin_cons_cons]
      unfold goFields
      rw [List.splitOnP_first]
      · obtain ⟨hne, _⟩ := h w (List.mem_cons_self _ _)
        have ihh := ih (fun x hx => h x (List.mem_cons_of_mem _ hx))
        unfold goFields at ihh
        simp [hne, ihh]
      · intro x hx hsp
        exact absurd ((h w (List.mem_cons_self _ _)).2 x hx) (by simp [hsp])
      · decide

theorem rewriteToken_ok (v : List GoString) {base w : GoString}
    (hbase : ∀ c ∈ base, goIsSpace c = false)
    (hw1 : w ≠ []) (hw2 : ∀ c ∈ w, goIsSpace c = false) :
    rewriteToken v base w ≠ [] ∧ ∀ c ∈ rewriteToken v base w, goIsSpace c = false := by
  unfold rewriteToken
  split
  · constructor
    · simp [linkify, str]
    · intro c hc
      have hlb : ∀ c ∈ str "[", goIsSpace c = false := by decide
      have hmid : ∀ c ∈ str "](", goIsSpace c = false := by decide
      have hbr : ∀ c ∈ str "/browse/", goIsSpace c = false := by decide
      have hrb : ∀ c ∈ str ")", goIsSpace c = false := by decide
      simp only [linkify, List.mem_append] at hc
      rcases hc with ((((((h | h) | h) | h) | h) | h) | h)
      · exact hlb c h
      · exact hw2 c h
      · exact hmid c h
      · exact hbase c h
      · exact hbr c h
      · exact hw2 c h
      · exact hrb c h
  · exact ⟨hw1, hw2⟩

theorem tokenMatches_rewriteToken (v : List GoString) (b w : GoString) :
    tokenMatches v (rewriteToken v b w) = false := by
  unfold rewriteToken
  split
  · have hstart : startsWithChars (linkify b w) (str "[") = true := by
      simp [linkify, startsWithChars, str]
    simp [tokenMatches, hstart]
  · next h => exact eq_false_of_ne_true h

/-- C2: for every input text, validated-identifier set and base URL, the
Annotator rewrites exactly the whitespace-delimited tokens that do not
start with `[` and contain some validated identifier as a substring, each
becoming `[<token>](<base-url>/browse/<token>)`; when at least one token
is rewritten the result rejoins all tokens with single ASCII spaces, and
when no token is rewritten the function returns the input string
unchanged. -/
theorem claim_C2_annotator_rewrite (body : GoString) (validIssues : List GoString)
    (jiraBaseURL : GoString) :
    insertLinksIntoComment body validIssues jiraBaseURL =
      if (goFields body).any (tokenMatches validIssues) then
        goJoin ((goFields body).map (rewriteToken validIssues jiraBaseURL))
      else body :=
  insertLinks_eq body validIssues jiraBaseURL

/-- C3 counterexample: with a base URL containing a space, the Annotator is
not idempotent — the second pass rewrites the token the base URL was split
into. -/
theorem claim_C3_counterexample :
    insertLinksIntoComment
        (insertLinksIntoComment (str "AB-1") [str "AB-1"] (str "x y"))
        [str "AB-1"] (str "x y") ≠
      insertLinksIntoComment (str "AB-1") [str "AB-1"] (str "x y") := by
  decide

/-- C3 (amended): for every text and validated-identifier set, and every
base URL containing no whitespace character, applying
`insertLinksIntoComment` to its own output (with the same set and base
URL) returns that output unchanged: every rewritten token now starts with
`[` and is skipped by the already-linked heuristic. -/
theorem claim_C3_annotator_idempotent (body : GoString) (validIssues : List GoString)
    (base : GoString) (hbase : ∀ c ∈ base, goIsSpace c = false) :
    insertLinksIntoComment (insertLinksIntoComment body validIssues base) validIssues base =
      insertLinksIntoComment body validIssues base := by
  by_cases h : (goFields body).any (tokenMatches validIssues)
  · have hout : insertLinksIntoComment body validIssues base =
        goJoin ((goFields body).map (rewriteToken validIssues base)) := by
      rw [insertLinks_eq, if_pos h]
    rw [hout]
    have hfields : goFields (goJoin ((goFields body).map (rewriteToken validIssues base))) =
        (goFields body).map (rewriteToken validIssues base) := by
      apply goFields_goJoin
      intro w hw
      obtain ⟨w0, hw0, rfl⟩ := List.mem_map.mp hw
      obtain ⟨h1, h2⟩ := goFields_mem hw0
      exact rewriteToken_ok validIssues hbase h1 h2
    rw [insertLinks_eq, hfields, if_neg ?_]
    simp only [List.any_eq_true, not_exists]
    rintro w ⟨hw, hmat⟩
    obtain ⟨w0, _, rfl⟩ := List.mem_map.mp hw
    rw [tokenMatches_rewriteToken] at hmat
    exact Bool.false_ne_true hmat
  · have hstab : insertLinksIntoComment body validIssues base = body := by
      rw [insertLinks_eq, if_neg h]
    rw [hstab, hstab]

/-- C3 witness: the amended idempotence at a concrete rewritten body and a
space-free base URL. -/
theorem claim_C3_witness :
    (∀ c ∈ str "https://j.example.com", goIsSpace c = false) ∧
    insertLinksIntoComment
        (insertLinksIntoComment (str "see AB-1 here") [str "AB-1"] (str "https://j.example.com"))
        [str "AB-1"] (str "https://j.example.com") =
      insertLinksIntoComment (str "see AB-1 here") [str "AB-1"] (str "https://j.example.com") :=
  ⟨by decide, claim_C3_annotator_idempotent _ _ _ (by decide)⟩

theorem upsertDecision_some {links : List RemoteLink} {e : GenericCommentEvent}
    {l : RemoteLink} (h : upsertDecision links e = some l) : l = mkRemoteLink e := by
  unfold upsertDecision at h
  split at h
  · exact absurd h (by simp)
  · exact (Option.some_inj.mp h).symm

theorem upsertDecision_of_mem {links : List RemoteLink} {e : GenericCommentEvent}
    {l : RemoteLink} (hl : l ∈ links) (hurl : l.Object.URL = stripFragment e.HTMLURL) :
    upsertDecision links e = none := by
  unfold upsertDecision
  rw [if_pos]
  exact List.any_eq_true.mpr ⟨l, hl, by simp [hurl]⟩

/-- C1: whenever any remote link already fetched for the issue has a target
URL equal to the event URL truncated at its first `#`, the upserter returns
without calling `AddRemoteLink` (its trace is the fetch alone and it
returns no error); consequently a second run over the link set produced by
the first run decides to create nothing. -/
theorem claim_C1_upsert_idempotent (links : List RemoteLink) (e : GenericCommentEvent)
    (env : Env) (issueID : GoString) :
    (env.remoteLinks issueID = .ok links →
      (∃ l ∈ links, l.Object.URL = stripFragment e.HTMLURL) →
      upsertGitHubLinkToIssue env issueID e = ([.getRemoteLinks issueID], none)) ∧
    upsertDecision (applyUpsert links e) e = none := by
  constructor
  · intro hok ⟨l, hl, hurl⟩
    unfold upsertGitHubLinkToIssue
    rw [hok]
    simp [upsertDecision_of_mem hl hurl]
  · unfold applyUpsert
    cases hd : upsertDecision links e with
    | none => exact hd
    | some l =>
      have hl : l = mkRemoteLink e := upsertDecision_some hd
      apply upsertDecision_of_mem (l := l) (by simp)
      rw [hl]; rfl

/-- C1 witness: with the canonical link already present the upserter only
fetches, and a second run over the set produced by a first run from an
empty link set creates nothing. -/
theorem claim_C1_witness :
    upsertGitHubLinkToIssue envWithLink (str "ABC-123") sampleEvent =
      ([.getRemoteLinks (str "ABC-123")], none) ∧
    upsertDecision (applyUpsert [] sampleEvent) sampleEvent = none :=
  ⟨(claim_C1_upsert_idempotent [sampleLink] sampleEvent envWithLink (str "ABC-123")).1
      rfl ⟨sampleLink, by decide, by decide⟩,
   (claim_C1_upsert_idempotent [] sampleEvent envWithLink (str "ABC-123")).2⟩

theorem stripFragment_eq_takeWhile :
    ∀ url : GoString, stripFragment url = url.takeWhile (fun c => c != '#') := by
  intro url
  induction url with
  | nil => rfl
  | cons c cs ih =>
    by_cases hc : c = '#'
    · subst hc
      unfold stripFragment
      rw [List.findIdx?_cons]
      simp [List.takeWhile_cons]
    · unfold stripFragment at ih ⊢
      rw [List.findIdx?_cons, if_neg (by simpa using hc), List.findIdx?_succ]
      rw [List.takeWhile_cons, if_pos (by simpa using hc)]
      cases hcs : cs.findIdx? (fun c => decide (c = '#')) with
      | none =>
        rw [hcs] at ih
        simpa using congrArg (c :: ·) ih
      | some j =>
        rw [hcs] at ih
        simpa [List.take_succ_cons] using congrArg (c :: ·) ih

theorem takeWhile_of_all {p : Char → Bool} :
    ∀ l : GoString, (∀ c ∈ l, p c = true) → l.takeWhile p = l := by
  intro l h
  induction l with
  | nil => rfl
  | cons c cs ih =>
    rw [List.takeWhile_cons, if_pos (h c (List.mem_cons_self _ _))]
    exact congrArg (c :: ·) (ih fun x hx => h x (List.mem_cons_of_mem _ hx))

/-- C6: when the upserter decides to create a RemoteLink, its target URL is
the event URL truncated at the first `#` when one is present (otherwise
unchanged — `stripFragment` is exactly `takeWhile (· != '#')`), its title
is `<repo full name>#<thread number>: <title>`, its icon is the fixed
GitHub favicon labelled `GitHub`, and the stored target contains no
fragment marker (the match in `upsertDecision` compares against the same
fragment-free form). -/
theorem claim_C6_created_link_fields (links : List RemoteLink) (e : GenericCommentEvent)
    (l : RemoteLink) (h : upsertDecision links e = some l) :
    l.Object.URL = stripFragment e.HTMLURL ∧
    l.Object.Title = e.RepoFullName ++ str "#" ++ (toString e.Number).data ++
      str ": " ++ e.IssueTitle ∧
    l.Object.Icon = ⟨str "https://github.com/favicon.ico", str "GitHub"⟩ ∧
    (∀ url : GoString, stripFragment url = url.takeWhile (fun c => c != '#')) ∧
    (∀ url : GoString, '#' ∉ url → stripFragment url = url) ∧
    ('#' : Char) ∉ l.Object.URL := by
  have hl := upsertDecision_some h
  subst hl
  refine ⟨rfl, rfl, rfl, stripFragment_eq_takeWhile, ?_, ?_⟩
  · intro url hurl
    rw [stripFragment_eq_takeWhile]
    apply takeWhile_of_all
    intro c hc
    simp only [bne_iff_ne, ne_eq, decide_eq_true_eq]
    intro hceq
    exact hurl (hceq ▸ hc)
  · show ('#' : Char) ∉ (mkRemoteLink e).Object.URL
    have : (mkRemoteLink e).Object.URL = stripFragment e.HTMLURL := rfl
    rw [this, stripFragment_eq_takeWhile]
    intro hmem
    have := List.mem_takeWhile_imp hmem
    simp at this

/-- C6 witness: the link created for `sampleEvent` carries the
fragment-free URL. -/
theorem claim_C6_witness :
    (mkRemoteLink sampleEvent).Object.URL = stripFragment sampleEvent.HTMLURL ∧
    ('#' : Char) ∉ (mkRemoteLink sampleEvent).Object.URL := by
  have h := claim_C6_created_link_fields [] sampleEvent (mkRemoteLink sampleEvent) (by decide)
  exact ⟨h.1, h.2.2.2.2.2⟩


theorem isWordChar_of_alpha {c : Char} (h : c.isAlpha = true) : isWordChar c = true := by
  simp [isWordChar, h]

theorem isWordChar_of_digit {c : Char} (h : c.isDigit = true) : isWordChar c = true := by
  simp [isWordChar, h]

theorem not_alpha_of_digit {c : Char} (h : c.isDigit = true) : c.isAlpha = false := by
  simp only [Char.isDigit, Char.isAlpha, Char.isUpper, Char.isLower, Char.le_def,
    Bool.and_eq_true, Bool.or_eq_false_iff, Bool.and_eq_false_iff,
    decide_eq_true_eq, decide_eq_false_iff_not, not_le,
    ge_iff_le, UInt32.le_def, UInt32.lt_def, BitVec.le_def, BitVec.lt_def,
    UInt32.toBitVec_ofNat] at h ⊢
  simp only [BitVec.toNat_ofNat] at h ⊢
  omega

theorem matchIssueAt_none_of_not_alpha {c : Char} (x : GoString)
    (h : c.isAlpha = false) : matchIssueAt (c :: x) = none := by
  unfold matchIssueAt
  have ht : (c :: x).takeWhile Char.isAlpha = [] := by
    rw [List.takeWhile_cons, if_neg (by simp [h])]
  rw [ht]
  rfl

theorem specSkipWord : ∀ (ls tail : GoString),
    (∀ x ∈ ls, isWordChar x = true) →
    specExtractAux true (ls ++ tail) = specExtractAux true tail := by
  intro ls
  induction ls with
  | nil => intro tail _; rfl
  | cons x ls ih =>
    intro tail h
    show specExtractAux true (x :: (ls ++ tail)) = _
    rw [specExtractAux, if_pos rfl]
    rw [h x (List.mem_cons_self _ _)]
    exact ih tail fun y hy => h y (List.mem_cons_of_mem _ hy)

theorem findSkip : ∀ (xs : GoString) (d : Char) (rest : GoString) (p : Bool),
    findAllGo p (xs ++ [d]).length ((xs ++ [d]) ++ rest) =
      findAllGo (isWordChar d) 0 rest := by
  intro xs
  induction xs with
  | nil => intro d rest p; rfl
  | cons x xs ih =>
    intro d rest p
    show findAllGo p ((xs ++ [d]).length + 1) (x :: ((xs ++ [d]) ++ rest)) = _
    rw [findAllGo]
    exact ih d rest (isWordChar x)

theorem matchIssueAt_some_decomp {s m rest : GoString}
    (h : matchIssueAt s = some (m, rest)) :
    ∃ letters digits,
      letters ≠ [] ∧ (∀ c ∈ letters, c.isAlpha = true) ∧
      digits ≠ [] ∧ (∀ c ∈ digits, c.isDigit = true) ∧
      m = letters ++ '-' :: digits ∧ s = m ++ rest := by
  unfold matchIssueAt at h
  split at h
  · exact absurd h (by simp)
  · next h1 =>
    split at h
    · next r2 heq =>
      split at h
      · exact absurd h (by simp)
      · next h2 =>
        split at h
        · obtain ⟨hm, hrest⟩ := Prod.mk.injEq .. ▸ Option.some_inj.mp h
          refine ⟨s.takeWhile Char.isAlpha, r2.takeWhile Char.isDigit,
            ?_, ?_, ?_, ?_, hm.symm, ?_⟩
          · simpa using h1
          · exact fun c hc => List.mem_takeWhile_imp hc
          · simpa using h2
          · exact fun c hc => List.mem_takeWhile_imp hc
          · rw [← hm, ← hrest]
            have hs := List.takeWhile_append_dropWhile (p := Char.isAlpha) (l := s)
            have hr2 := List.takeWhile_append_dropWhile (p := Char.isDigit) (l := r2)
            calc s = s.takeWhile Char.isAlpha ++ s.dropWhile Char.isAlpha := hs.symm
              _ = s.takeWhile Char.isAlpha ++ ('-' :: r2) := by rw [heq]
              _ = s.takeWhile Char.isAlpha ++
                  ('-' :: (r2.takeWhile Char.isDigit ++ r2.dropWhile Char.isDigit)) := by
                    rw [hr2]
              _ = (s.takeWhile Char.isAlpha ++ '-' :: r2.takeWhile Char.isDigit) ++
                  r2.dropWhile Char.isDigit := by simp
        · exact absurd h (by simp)
    · exact absurd h (by simp)

theorem specSkipMatch (lt digits rest : GoString)
    (hlt : ∀ x ∈ lt, x.isAlpha = true) (hd : digits ≠ [])
    (hdig : ∀ x ∈ digits, x.isDigit = true) :
    specExtractAux true ((lt ++ '-' :: digits) ++ rest) = specExtractAux true rest := by
  rw [List.append_assoc, List.cons_append]
  rw [specSkipWord lt _ (fun x hx => isWordChar_of_alpha (hlt x hx))]
  rw [specExtractAux, if_pos rfl]
  have hdash : isWordChar '-' = false := by decide
  rw [hdash]
  cases digits with
  | nil => exact absurd rfl hd
  | cons d ds =>
    have hda : d.isAlpha = false := not_alpha_of_digit (hdig d (List.mem_cons_self _ _))
    have hword : isWordChar d = true := isWordChar_of_digit (hdig d (List.mem_cons_self _ _))
    rw [List.cons_append]
    rw [specExtractAux]
    rw [matchIssueAt_none_of_not_alpha _ hda]
    rw [if_neg (by simp)]
    rw [hword]
    exact specSkipWord ds rest fun y hy => isWordChar_of_digit (hdig y (List.mem_cons_of_mem _ hy))

theorem findAllGo_eq_specAux : ∀ (n : Nat) (s : GoString), s.length ≤ n →
    ∀ p : Bool, findAllGo p 0 s = specExtractAux p s := by
  intro n
  induction n with
  | zero =>
    intro s hs p
    have hnil : s = [] := List.eq_nil_of_length_eq_zero (Nat.le_zero.mp hs)
    subst hnil; rfl
  | succ n ih =>
    intro s hs p
    cases s with
    | nil => rfl
    | cons c cs =>
      have hcs : cs.length ≤ n := by
        simp only [List.length_cons] at hs
        omega
      by_cases hp : p = true
      · subst hp
        rw [findAllGo, specExtractAux, if_pos rfl, if_pos rfl]
        exact ih cs hcs (isWordChar c)
      · have hp' : p = false := eq_false_of_ne_true hp
        subst hp'
        rw [findAllGo, specExtractAux, if_neg (by simp), if_neg (by simp)]
        cases hm : matchIssueAt (c :: cs) with
        | none => exact ih cs hcs (isWordChar c)
        | some mr =>
          obtain ⟨m, rest⟩ := mr
          obtain ⟨letters, digits, hl0, hla, hd0, hdd, hm_eq, hs_eq⟩ :=
            matchIssueAt_some_decomp hm
          cases letters with
          | nil => exact absurd rfl hl0
          | cons c0 lt =>
            have hm' : m = c0 :: (lt ++ '-' :: digits) := by simpa using hm_eq
            have hcc : c :: cs = c0 :: ((lt ++ '-' :: digits) ++ rest) := by
              rw [hs_eq, hm', List.cons_append]
            have hc0 : c = c0 := by injection hcc with h1 _
            have hcs_eq : cs = (lt ++ '-' :: digits) ++ rest := by injection hcc with _ h2
            have hword : isWordChar c = true :=
              isWordChar_of_alpha (hc0 ▸ hla c0 (List.mem_cons_self _ _))
            show m :: findAllGo (isWordChar c) (m.length - 1) cs =
              m :: specExtractAux (isWordChar c) cs
            rw [hword]
            congr 1
            have hmlen : m.length - 1 = (lt ++ '-' :: digits).length := by
              rw [hm']; simp
            obtain ⟨ds, dl, hdig_eq⟩ : ∃ ds dl, digits = ds ++ [dl] := by
              rcases List.eq_nil_or_concat digits with h | ⟨ds, dl, h⟩
              · exact absurd h hd0
              · exact ⟨ds, dl, by simpa [List.concat_eq_append] using h⟩
            have hmt : lt ++ '-' :: digits = (lt ++ '-' :: ds) ++ [dl] := by
              rw [hdig_eq]; simp
            have hdl : isWordChar dl = true :=
              isWordChar_of_digit (hdd dl (by rw [hdig_eq]; simp))
            have hrest_len : rest.length ≤ n := by
              have : cs.length = (lt ++ '-' :: digits).length + rest.length := by
                rw [hcs_eq, List.length_append]
              omega
            have hlt' : ∀ x ∈ lt, x.isAlpha = true :=
              fun x hx => hla x (List.mem_cons_of_mem _ hx)
            calc findAllGo true (m.length - 1) cs
                = findAllGo true ((lt ++ '-' :: ds) ++ [dl]).length
                    (((lt ++ '-' :: ds) ++ [dl]) ++ rest) := by
                  rw [hmlen, hcs_eq, hmt]
              _ = findAllGo (isWordChar dl) 0 rest := findSkip _ _ _ _
              _ = findAllGo true 0 rest := by rw [hdl]
              _ = specExtractAux true rest := ih rest hrest_len true
              _ = specExtractAux true ((lt ++ '-' :: digits) ++ rest) :=
                  (specSkipMatch lt digits rest hlt' hd0 hdd).symm
              _ = specExtractAux true cs := by rw [hcs_eq]

theorem findAllIssueNames_eq_specExtract (s : GoString) :
    findAllIssueNames s = specExtract s :=
  findAllGo_eq_specAux s.length s (Nat.le_refl _) false

/-- C4: for every body text and title text, extraction returns exactly the
word-boundary-delimited substrings matching `[A-Za-z]+-[0-9]+`, in document
order with duplicates allowed, all body matches first followed by all
title matches (the code's non-overlapping scanner equals the spec-side
positional extractor); and when the extracted sequence is empty the
handler terminates with no tracker call (and no GitHub call either). -/
theorem claim_C4_extraction (body title : GoString) (env : Env) (e : GenericCommentEvent) :
    findAllIssueNames body ++ findAllIssueNames title =
      specExtract body ++ specExtract title ∧
    (findAllIssueNames e.Body ++ findAllIssueNames e.IssueTitle = [] →
      (handle env e).jiraCalls = [] ∧ (handle env e).githubCalls = []) := by
  constructor
  · rw [findAllIssueNames_eq_specExtract, findAllIssueNames_eq_specExtract]
  · intro hempty
    have hout : handle env e = ⟨[], [], [], none⟩ := by
      unfold handle
      by_cases hdel : e.Action = GenericCommentActionDeleted
      · rw [if_pos hdel]
      · rw [if_neg hdel]
        simp only [hempty, List.length_nil]
        exact if_pos trivial
    rw [hout]
    exact ⟨rfl, rfl⟩

/-- C4 witness: a concrete extraction equality and the tracker-call
short-circuit on an event with no candidate references. -/
theorem claim_C4_witness :
    findAllIssueNames (str "no refs here") ++ findAllIssueNames (str "a title") =
      specExtract (str "no refs here") ++ specExtract (str "a title") ∧
    ((handle sampleEnv evNoRefs).jiraCalls = [] ∧
      (handle sampleEnv evNoRefs).githubCalls = []) :=
  ⟨(claim_C4_extraction (str "no refs here") (str "a title") sampleEnv evNoRefs).1,
   (claim_C4_extraction (str "no refs here") (str "a title") sampleEnv evNoRefs).2 (by decide)⟩

theorem contains_iff_mem {l : List GoString} {c : GoString} :
    l.contains c = true ↔ c ∈ l := by
  simp [List.contains, List.elem_iff]

theorem validate_mem (lookup : GoString → LookupResult) :
    ∀ (cands referenced : List GoString) (c : GoString),
    (c ∈ (validateCandidates lookup cands referenced).1 ↔
      c ∈ referenced ∨ (c ∈ cands ∧ lookup c = .found)) := by
  intro cands
  induction cands with
  | nil => intro referenced c; simp [validateCandidates]
  | cons c0 rest ih =>
    intro referenced c
    simp only [validateCandidates]
    by_cases hc : referenced.contains c0
    · have hmemc0 : c0 ∈ referenced := contains_iff_mem.mp hc
      rw [if_pos hc, ih]
      constructor
      · rintro (h | ⟨h1, h2⟩)
        · exact Or.inl h
        · exact Or.inr ⟨List.mem_cons_of_mem _ h1, h2⟩
      · rintro (h | ⟨h1, h2⟩)
        · exact Or.inl h
        · rcases List.mem_cons.mp h1 with rfl | h1'
          · exact Or.inl hmemc0
          · exact Or.inr ⟨h1', h2⟩
    · rw [if_neg hc]
      cases hl : lookup c0 with
      | found =>
        rw [ih]
        constructor
        · rintro (h | ⟨h1, h2⟩)
          · rcases List.mem_append.mp h with h' | h'
            · exact Or.inl h'
            · have : c = c0 := by simpa using h'
              subst this
              exact Or.inr ⟨List.mem_cons_self _ _, hl⟩
          · exact Or.inr ⟨List.mem_cons_of_mem _ h1, h2⟩
        · rintro (h | ⟨h1, h2⟩)
          · exact Or.inl (List.mem_append.mpr (Or.inl h))
          · rcases List.mem_cons.mp h1 with rfl | h1'
            · exact Or.inl (List.mem_append.mpr (Or.inr (by simp)))
            · exact Or.inr ⟨h1', h2⟩
      | notFound =>
        rw [ih]
        constructor
        · rintro (h | ⟨h1, h2⟩)
          · exact Or.inl h
          · exact Or.inr ⟨List.mem_cons_of_mem _ h1, h2⟩
        · rintro (h | ⟨h1, h2⟩)
          · exact Or.inl h
          · rcases List.mem_cons.mp h1 with rfl | h1'
            · rw [hl] at h2; exact absurd h2 (by simp)
            · exact Or.inr ⟨h1', h2⟩
      | err msg =>
        rw [ih]
        constructor
        · rintro (h | ⟨h1, h2⟩)
          · exact Or.inl h
          · exact Or.inr ⟨List.mem_cons_of_mem _ h1, h2⟩
        · rintro (h | ⟨h1, h2⟩)
          · exact Or.inl h
          · rcases List.mem_cons.mp h1 with rfl | h1'
            · rw [hl] at h2; exact absurd h2 (by simp)
            · exact Or.inr ⟨h1', h2⟩

theorem validate_nodup (lookup : GoString → LookupResult) :
    ∀ (cands referenced : List GoString), referenced.Nodup →
    (validateCandidates lookup cands referenced).1.Nodup := by
  intro cands
  induction cands with
  | nil => intro referenced h; simpa [validateCandidates] using h
  | cons c0 rest ih =>
    intro referenced h
    simp only [validateCandidates]
    by_cases hc : referenced.contains c0
    · rw [if_pos hc]; exact ih referenced h
    · rw [if_neg hc]
      cases hl : lookup c0 with
      | found =>
        apply ih
        rw [List.nodup_append]
        refine ⟨h, List.nodup_singleton _, ?_⟩
        intro a ha ha'
        have : a = c0 := by simpa using ha'
        subst this
        exact hc (contains_iff_mem.mpr ha)
      | notFound => exact ih referenced h
      | err msg => exact ih referenced h



theorem validate_count (lookup : GoString → LookupResult) :
    ∀ (cands referenced : List GoString) (c : GoString),
    (validateCandidates lookup cands referenced).2.1.count (.getIssue c) =
      if c ∈ referenced then 0
      else if lookup c = .found then min (cands.count c) 1
      else cands.count c := by
  intro cands
  induction cands with
  | nil =>
    intro referenced c
    simp only [validateCandidates, List.count_nil]
    split_ifs <;> simp
  | cons c0 rest ih =>
    intro referenced c
    simp only [validateCandidates]
    have hcnt : List.count c (c0 :: rest) = List.count c rest + (if c0 = c then 1 else 0) := by
      simp [List.count_cons]
    by_cases hc : referenced.contains c0
    · rw [if_pos hc, ih]
      have hmemc0 : c0 ∈ referenced := contains_iff_mem.mp hc
      by_cases hcr : c ∈ referenced
      · simp [hcr]
      · have hne : ¬(c0 = c) := fun hh => hcr (hh ▸ hmemc0)
        simp only [hcnt, if_neg hcr, hne, if_false]
        simp
    · have hc0r : c0 ∉ referenced := fun hh => hc (contains_iff_mem.mpr hh)
      rw [if_neg hc]
      cases hl : lookup c0 with
      | found =>
        rw [List.count_cons, ih]
        simp only [beq_iff_eq, JiraCall.getIssue.injEq, hcnt]
        by_cases hcc : c = c0
        · subst hcc
          simp [hc0r, hl, Nat.min_def]
        · have hcc' : ¬(c0 = c) := fun hh => hcc hh.symm
          have hmm : (c ∈ referenced ++ [c0]) ↔ c ∈ referenced := by simp [hcc]
          simp only [hcc', if_false, Nat.add_zero, hmm]
      | notFound =>
        rw [List.count_cons, ih]
        simp only [beq_iff_eq, JiraCall.getIssue.injEq, hcnt]
        by_cases hcc : c = c0
        · subst hcc
          simp [hc0r, hl]
        · have hcc' : ¬(c0 = c) := fun hh => hcc hh.symm
          simp only [hcc', if_false, Nat.add_zero]
      | err msg =>
        rw [List.count_cons, ih]
        simp only [beq_iff_eq, JiraCall.getIssue.injEq, hcnt]
        by_cases hcc : c = c0
        · subst hcc
          simp [hc0r, hl]
        · have hcc' : ¬(c0 = c) := fun hh => hcc hh.symm
          simp only [hcc', if_false, Nat.add_zero]

theorem validate_logs (lookup : GoString → LookupResult) :
    ∀ (cands referenced : List GoString),
    ∀ line ∈ (validateCandidates lookup cands referenced).2.2,
      ∃ c m, c ∈ cands ∧ lookup c = .err m ∧ line = str "Failed to get issue " ++ c := by
  intro cands
  induction cands with
  | nil => intro referenced line h; simp [validateCandidates] at h
  | cons c0 rest ih =>
    intro referenced line h
    simp only [validateCandidates] at h
    by_cases hc : referenced.contains c0
    · rw [if_pos hc] at h
      obtain ⟨c, m, h1, h2, h3⟩ := ih referenced line h
      exact ⟨c, m, List.mem_cons_of_mem _ h1, h2, h3⟩
    · rw [if_neg hc] at h
      cases hl : lookup c0 with
      | found =>
        rw [hl] at h
        simp only [] at h
        obtain ⟨c, m, h1, h2, h3⟩ := ih (referenced ++ [c0]) line h
        exact ⟨c, m, List.mem_cons_of_mem _ h1, h2, h3⟩
      | notFound =>
        rw [hl] at h
        simp only [] at h
        obtain ⟨c, m, h1, h2, h3⟩ := ih referenced line h
        exact ⟨c, m, List.mem_cons_of_mem _ h1, h2, h3⟩
      | err m0 =>
        rw [hl] at h
        simp only [] at h
        rcases List.mem_cons.mp h with rfl | h'
        · exact ⟨c0, m0, List.mem_cons_self _ _, hl, rfl⟩
        · obtain ⟨c, m, h1, h2, h3⟩ := ih referenced line h'
          exact ⟨c, m, List.mem_cons_of_mem _ h1, h2, h3⟩

/-- C5 counterexample: the dedup set only tracks successfully validated
candidates, so a repeated candidate whose lookup is "not found" is looked
up once per occurrence — here twice for the single unique candidate
`ab-1`, where the claim requires exactly one lookup. -/
theorem claim_C5_counterexample :
    (validateCandidates (fun _ => .notFound) [str "ab-1", str "ab-1"] []).2.1.count
        (.getIssue (str "ab-1")) = 2 := by
  decide

/-- C5 (amended): the Validator deduplicates against the set of already
successfully validated candidates (first occurrence wins, exact
case-sensitive equality): a candidate whose lookup succeeds is looked up
exactly once however often it recurs, while a candidate whose lookup does
not succeed is looked up once per occurrence; a not-found lookup drops the
candidate silently (it logs nothing), any other lookup failure is logged
while the remaining candidates are still processed, and the result is
exactly the (duplicate-free) set of candidates whose lookup succeeded. -/
theorem claim_C5_validator (lookup : GoString → LookupResult) (cands : List GoString) :
    (validateCandidates lookup cands []).1.Nodup ∧
    (∀ c, c ∈ (validateCandidates lookup cands []).1 ↔
      (c ∈ cands ∧ lookup c = .found)) ∧
    (∀ c ∈ cands, lookup c = .found →
      (validateCandidates lookup cands []).2.1.count (.getIssue c) = 1) ∧
    (∀ c ∈ cands, lookup c ≠ .found →
      (validateCandidates lookup cands []).2.1.count (.getIssue c) = cands.count c) ∧
    (∀ line ∈ (validateCandidates lookup cands []).2.2,
      ∃ c m, c ∈ cands ∧ lookup c = .err m ∧
        line = str "Failed to get issue " ++ c) ∧
    (∀ c ∈ cands, lookup c = .notFound →
      str "Failed to get issue " ++ c ∉ (validateCandidates lookup cands []).2.2) := by
  refine ⟨?_, ?_, ?_, ?_, ?_, ?_⟩
  · exact validate_nodup lookup cands [] List.nodup_nil
  · intro c
    rw [validate_mem]
    simp
  · intro c hc hf
    rw [validate_count]
    have h1 : 0 < List.count c cands := List.count_pos_iff.mpr hc
    simp only [List.not_mem_nil, if_false, hf, if_pos rfl]
    exact min_eq_right h1
  · intro c hc hf
    rw [validate_count]
    simp only [List.not_mem_nil, if_false, if_neg hf]
  · exact validate_logs lookup cands []
  · intro c _ hnf hline
    obtain ⟨c', m, _, herr, heq⟩ := validate_logs lookup cands [] _ hline
    have : c = c' := List.append_cancel_left heq
    subst this
    rw [hnf] at herr
    exact absurd herr (by simp)

/-- C5 witness: with `AB-1` existing and looked up twice among the
candidates, it lands in the validated set and is looked up exactly once. -/
theorem claim_C5_witness :
    (str "AB-1") ∈ (validateCandidates wLookup [str "AB-1", str "AB-1", str "CD-2"] []).1 ∧
    (validateCandidates wLookup [str "AB-1", str "AB-1", str "CD-2"] []).2.1.count
        (.getIssue (str "AB-1")) = 1 := by
  have h := claim_C5_validator wLookup [str "AB-1", str "AB-1", str "CD-2"]
  exact ⟨(h.2.1 (str "AB-1")).mpr ⟨by decide, by decide⟩,
         h.2.2.1 (str "AB-1") (by decide) (by decide)⟩

/-- C9: an event whose action denotes deletion makes the handler return
immediately: no Jira call, no GitHub call, no log, a nil error. -/
theorem claim_C9_deletion (env : Env) (e : GenericCommentEvent)
    (h : e.Action = GenericCommentActionDeleted) :
    handle env e = ⟨[], [], [], none⟩ := by
  unfold handle
  rw [if_pos h]

/-- C9 witness: the deletion short-circuit on a concrete event. -/
theorem claim_C9_witness :
    handle sampleEnv { sampleEvent with Action := str "deleted" } = ⟨[], [], [], none⟩ :=
  claim_C9_deletion sampleEnv _ rfl

/-- C7: when the annotated body differs from the original, an event with a
comment identifier is written back via EditComment with the annotated
body; an event without one fetches the issue body, annotates that body,
and issues EditIssue exactly when this second annotation differs; and
when neither comparison differs no write call reaches GitHub. -/
theorem claim_C7_updateComment (env : Env) (e : GenericCommentEvent)
    (validIssues : List GoString) :
    (insertLinksIntoComment e.Body validIssues env.jiraURL = e.Body →
      (updateComment env e validIssues).1 = []) ∧
    (insertLinksIntoComment e.Body validIssues env.jiraURL ≠ e.Body →
      (∀ cid, e.CommentID = some cid →
        (updateComment env e validIssues).1 =
          [.editComment e.RepoOwnerLogin e.RepoName cid
            (insertLinksIntoComment e.Body validIssues env.jiraURL)]) ∧
      (e.CommentID = none →
        ∀ b, env.ghIssueBody e.RepoOwnerLogin e.RepoName e.Number = .ok b →
          (updateComment env e validIssues).1 =
            .getIssue e.RepoOwnerLogin e.RepoName e.Number ::
              (if insertLinksIntoComment b validIssues env.jiraURL = b then []
               else [.editIssue e.RepoOwnerLogin e.RepoName e.Number
                 (insertLinksIntoComment b validIssues env.jiraURL)]))) ∧
    (e.CommentID = none →
      ∀ b, env.ghIssueBody e.RepoOwnerLogin e.RepoName e.Number = .ok b →
        insertLinksIntoComment b validIssues env.jiraURL = b →
        ∀ call ∈ (updateComment env e validIssues).1, call.write = false) := by
  simp only [updateComment]
  by_cases h1 : insertLinksIntoComment e.Body validIssues env.jiraURL = e.Body
  · rw [if_pos h1]
    refine ⟨fun _ => rfl, fun hne => absurd h1 hne, fun _ _ _ _ call hcall => ?_⟩
    simp at hcall
  · rw [if_neg h1]
    cases hcid : e.CommentID with
    | some cid0 =>
      simp only []
      refine ⟨fun h => absurd h h1, fun _ => ⟨fun cid hc => ?_, fun hn => ?_⟩,
        fun hn => ?_⟩
      · have : cid0 = cid := by injection hc
        subst this
        rfl
      · exact absurd hn (by simp)
      · exact absurd hn (by simp)
    | none =>
      cases hgh : env.ghIssueBody e.RepoOwnerLogin e.RepoName e.Number with
      | error msg =>
        simp only []
        refine ⟨fun h => absurd h h1, fun _ => ⟨fun cid hc => ?_, fun _ b hb => ?_⟩,
          fun _ b hb => ?_⟩
        · exact absurd hc (by simp)
        · exact absurd hb (by simp)
        · exact absurd hb (by simp)
      | ok b0 =>
        simp only []
        by_cases h2 : insertLinksIntoComment b0 validIssues env.jiraURL = b0
        · rw [if_pos h2]
          refine ⟨fun h => absurd h h1, fun _ => ⟨fun cid hc => ?_, fun _ b hb => ?_⟩,
            fun _ b hb h2' call hcall => ?_⟩
          · exact absurd hc (by simp)
          · have : b0 = b := by injection hb
            subst this
            rw [if_pos h2]
          · have hc0 : call = .getIssue e.RepoOwnerLogin e.RepoName e.Number := by
              simpa using hcall
            subst hc0
            rfl
        · rw [if_neg h2]
          refine ⟨fun h => absurd h h1, fun _ => ⟨fun cid hc => ?_, fun _ b hb => ?_⟩,
            fun _ b hb h2' => ?_⟩
          · exact absurd hc (by simp)
          · have : b0 = b := by injection hb
            subst this
            rw [if_neg h2]
          · have : b0 = b := by injection hb
            subst this
            exact absurd h2' h2

/-- C7 witness: the sample comment event gets its annotated body written
back via EditComment. -/
theorem claim_C7_witness :
    (updateComment sampleEnv sampleEvent [str "ABC-123"]).1 =
      [.editComment (str "o") (str "r") 9
        (insertLinksIntoComment sampleEvent.Body [str "ABC-123"] sampleEnv.jiraURL)] :=
  ((claim_C7_updateComment sampleEnv sampleEvent [str "ABC-123"]).2.1 (by decide)).1 9 rfl

theorem upsertAll_calls (env : Env) (e : GenericCommentEvent) :
    ∀ issues : List GoString,
    (upsertAll env e issues).1 =
      (issues.map (fun i => (upsertGitHubLinkToIssue env i e).1)).flatten := by
  intro issues
  induction issues with
  | nil => rfl
  | cons i rest ih => simp [upsertAll, ih]

theorem upsertAll_logs (env : Env) (e : GenericCommentEvent) :
    ∀ (issues : List GoString), ∀ issue ∈ issues, ∀ msg,
    (upsertGitHubLinkToIssue env issue e).2 = some msg →
    (str "Failed to ensure GitHub link on Jira issue: " ++ msg) ∈
      (upsertAll env e issues).2 := by
  intro issues
  induction issues with
  | nil => intro issue h; simp at h
  | cons i rest ih =>
    intro issue hmem msg hfail
    rcases List.mem_cons.mp hmem with rfl | hmem'
    · simp only [upsertAll, hfail, List.mem_append]
      left
      simp
    · simp only [upsertAll, List.mem_append]
      right
      exact ih issue hmem' msg hfail

/-- C8 counterexample: with the remote-link fetch and the comment edit both
failing, failures are logged (the log is nonempty) yet `handle` returns to
its caller exactly what it returns in the all-success environment — a nil
error with no aggregated outcome. -/
theorem claim_C8_counterexample :
    (handle failEnv sampleEvent).logs ≠ [] ∧
    (handle failEnv sampleEvent).ret = (handle sampleEnv sampleEvent).ret := by
  decide

/-- C8 (amended): every remote-call failure is isolated to its unit of
work and never propagated as a fatal error — `handle` returns nil on every
path; each upsert unit's calls appear in the fan-out trace unchanged by
the other units' outcomes, and a failing unit's error is recorded in the
logs — but no aggregated outcome of the failures is surfaced to the
caller, who only ever receives nil. -/
theorem claim_C8_best_effort (env : Env) (e : GenericCommentEvent) :
    (handle env e).ret = none ∧
    (∀ issues : List GoString, (upsertAll env e issues).1 =
      (issues.map (fun i => (upsertGitHubLinkToIssue env i e).1)).flatten) ∧
    (∀ issues : List GoString, ∀ issue ∈ issues, ∀ msg,
      (upsertGitHubLinkToIssue env issue e).2 = some msg →
      (str "Failed to ensure GitHub link on Jira issue: " ++ msg) ∈
        (upsertAll env e issues).2) := by
  refine ⟨?_, upsertAll_calls env e, upsertAll_logs env e⟩
  unfold handle
  by_cases hdel : e.Action = GenericCommentActionDeleted
  · rw [if_pos hdel]
  · rw [if_neg hdel]
    by_cases hlen : (findAllIssueNames e.Body ++ findAllIssueNames e.IssueTitle).length = 0
    · rw [if_pos hlen]
    · rw [if_neg hlen]

/-- C8 witness: in the failing environment `handle` still returns nil, and
the failed remote-link fetch for `ABC-123` is recorded in the fan-out
logs. -/
theorem claim_C8_witness :
    (handle failEnv sampleEvent).ret = none ∧
    (str "Failed to ensure GitHub link on Jira issue: " ++
      (str "failed to get remote links: " ++ str "jira down")) ∈
      (upsertAll failEnv sampleEvent [str "ABC-123"]).2 :=
  ⟨(claim_C8_best_effort failEnv sampleEvent).1,
   (claim_C8_best_effort failEnv sampleEvent).2.2 [str "ABC-123"] (str "ABC-123")
     (by decide) (str "failed to get remote links: " ++ str "jira down") (by decide)⟩

/-- C10: an identifier occurring only in the event title is still
validated and upserted on the tracker side, but the title itself is never
rewritten: when no body token contains the validated identifier, the run
issues the validation lookup and the upsert's tracker calls (including the
link creation when the issue has no remote links yet) and zero GitHub
calls. -/
theorem claim_C10_title_only (env : Env) (e : GenericCommentEvent) (t : GoString)
    (hact : e.Action ≠ GenericCommentActionDeleted)
    (hbody : findAllIssueNames e.Body = [])
    (htitle : findAllIssueNames e.IssueTitle = [t])
    (hfound : env.lookup t = .found)
    (hnotok : ∀ w ∈ goFields e.Body, goContains w t = false) :
    (handle env e).githubCalls = [] ∧
    (handle env e).jiraCalls = .getIssue t :: (upsertGitHubLinkToIssue env t e).1 ∧
    (env.remoteLinks t = .ok [] →
      .addRemoteLink t (mkRemoteLink e) ∈ (handle env e).jiraCalls) := by
  have hins : insertLinksIntoComment e.Body [t] env.jiraURL = e.Body := by
    rw [insertLinks_eq]
    rw [if_neg ?_]
    simp only [List.any_eq_true, not_exists]
    rintro w ⟨hw, hmat⟩
    simp only [tokenMatches, Bool.and_eq_true, List.any_eq_true] at hmat
    obtain ⟨i, hi, hcon⟩ := hmat.2
    have : i = t := by simpa using hi
    subst this
    rw [hnotok w hw] at hcon
    exact Bool.false_ne_true hcon
  have hval : validateCandidates env.lookup [t] [] = ([t], [JiraCall.getIssue t], []) := by
    simp [validateCandidates, hfound]
  have hupd : updateComment env e [t] = ([], none) := by
    simp only [updateComment]
    rw [if_pos hins]
  have hh : handle env e =
      ⟨JiraCall.getIssue t :: (upsertGitHubLinkToIssue env t e).1, [],
       (upsertAll env e [t]).2, none⟩ := by
    unfold handle
    rw [if_neg hact]
    simp only [hbody, htitle, List.nil_append]
    rw [if_neg (by simp)]
    rw [hval]
    simp only [hupd, upsertAll]
    simp
  refine ⟨by rw [hh], by rw [hh], ?_⟩
  intro hok
  rw [hh]
  simp only [List.mem_cons]
  right
  have hdec : upsertDecision [] e = some (mkRemoteLink e) := rfl
  unfold upsertGitHubLinkToIssue
  rw [hok]
  simp only []
  rw [hdec]
  cases env.addRemoteLinkErr t <;> simp

/-- C10 witness: a title-only reference on a concrete event produces the
tracker-side link creation and zero GitHub calls. -/
theorem claim_C10_witness :
    (handle sampleEnv evTitleOnly).githubCalls = [] ∧
    JiraCall.addRemoteLink (str "ABC-123") (mkRemoteLink evTitleOnly) ∈
      (handle sampleEnv evTitleOnly).jiraCalls := by
  have h := claim_C10_title_only sampleEnv evTitleOnly (str "ABC-123")
    (by decide) (by decide) (by decide) (by decide) (by decide)
  exact ⟨h.1, h.2.2 rfl⟩
